import Mathlib

/-! ## gpio-tools (busybox): device validation and chip enumeration

A shallow embedding of `miscutils/gpio-tools.c`.

* C strings and byte buffers are lists of characters. The end of a list
  stands for the terminating NUL of a C string; a buffer may also hold
  `'\x00'` itself, and the string functions stop there as in C.
* The kernel and the file system are a read-only record `Env`; the process
  is a record `Proc` (descriptor table, `errno`, standard output).
* A call either returns (`Res.ret`) or terminates the process through
  `bb_perror_msg_and_die` (`Res.die`), carrying the state at that moment.
-/

namespace GpioTools

/-! ## C library: strings and formatting -/

/-- The NUL character, the terminator of C strings. -/
def NUL : Char := Char.ofNat 0

/-- The function `strncmp(s1, s2, n)`: compare at most `n` characters, stop at
the first difference or at a terminator. -/
def strncmp : List Char → List Char → Nat → Int
  | _, _, 0 => 0
  | s1, s2, n + 1 =>
    let c1 := s1.headD NUL
    let c2 := s2.headD NUL
    if c1 ≠ c2 then (c1.toNat : Int) - (c2.toNat : Int)
    else if c1 = NUL then 0
    else strncmp s1.tail s2.tail n

/-- The function `strcmp(s1, s2)`: `strncmp` without a length bound. -/
def strcmp : List Char → List Char → Int
  | [], s2 => (NUL.toNat : Int) - ((s2.headD NUL).toNat : Int)
  | c1 :: t1, s2 =>
    let c2 := s2.headD NUL
    if c1 ≠ c2 then (c1.toNat : Int) - (c2.toNat : Int)
    else if c1 = NUL then 0
    else strcmp t1 s2.tail

/-- The function `strlen(s)`: the characters before the terminator. -/
def strlen (s : List Char) : Nat := (s.takeWhile (fun c => c != NUL)).length

/-- An argument of a `printf`-style call. -/
inductive FmtArg where
  | str (s : List Char)
  | uint (n : Nat)

/-- The conversions of `printf` that the program uses: `%s` copies a string,
`%u` writes an `unsigned int` in decimal, every other character is copied. -/
def c_format : List Char → List FmtArg → List Char
  | [], _ => []
  | '%' :: 's' :: rest, FmtArg.str s :: args => s ++ c_format rest args
  | '%' :: 'u' :: rest, FmtArg.uint n :: args =>
      Nat.toDigits 10 (n % 2 ^ 32) ++ c_format rest args
  | c :: rest, args => c :: c_format rest args

/-- The call `snprintf(buf, size, fmt, ...)`: the formatted text cut to
`size - 1` characters (the last byte of `buf` holds the terminator). -/
def snprintf (size : Nat) (fmt : List Char) (args : List FmtArg) : List Char :=
  (c_format fmt args).take (size - 1)

/-- Modelled from the spec: `xasprintf` of libbb is not part of the source
file; it yields the whole formatted text (the directory base joined with a
name, the attribute path derived from a base name). -/
def xasprintf (fmt : List Char) (args : List FmtArg) : List Char :=
  c_format fmt args

/-- The function `strrchr(s, c)`: the part of `s` that starts at the last
occurrence of `c`, if there is one. -/
def strrchr : List Char → Char → Option (List Char)
  | [], _ => none
  | x :: rest, c =>
    match strrchr rest c with
    | some cp => some cp
    | none => if x = c then some (x :: rest) else none

/-- Modelled from the spec: `bb_basename` of libbb is not part of the source
file; the spec calls its result the device's base name, the part of the
path after its last `'/'` (the whole path when it has none). -/
def bb_basename (name : List Char) : List Char :=
  match strrchr name '/' with
  | some cp => cp.tail
  | none => name

/-! ## Kernel, file system and process state -/

/-- What `fstat` reports and the validator looks at. -/
structure stat where
  /-- Result of `S_ISCHR(st_mode)`. -/
  st_is_chr : Bool
  /-- Result of `major(st_rdev)`. -/
  st_major : Nat
  /-- Result of `minor(st_rdev)`. -/
  st_minor : Nat
deriving DecidableEq

/-- A directory entry; only its name is used. The name is a C string, so no
character of it is the terminator. -/
structure dirent where
  d_name : List Char
  d_name_cstr : NUL ∉ d_name
deriving DecidableEq

/-- The record `struct gpiochip_info` of `<linux/gpio.h>`. -/
structure gpiochip_info where
  name : List Char
  label : List Char
  lines : Nat
deriving DecidableEq

/-- The world outside the process; it does not change during a run. -/
structure Env where
  /-- For `open(path, O_RDWR)`: `none` on success, the `errno` on failure. -/
  open_err : List Char → Option Int
  /-- For `fstat` on a descriptor opened on the path; `none` when it fails. -/
  fstat : List Char → Option stat
  /-- Whether `access(path, R_OK)` returns 0. -/
  access_r : List Char → Bool
  /-- The bytes of the file for a read; `none` when it cannot be read. -/
  read_file : List Char → Option (List Char)
  /-- The indeterminate bytes that the uninitialised array `sysfsdev` holds
  when `gpiochip_open` is entered for the path. -/
  residue : List Char → List Char
  /-- The entries of a directory in the order `readdir` yields them; `none`
  when the directory cannot be scanned. -/
  dir_entries : List Char → Option (List dirent)
  /-- The answer of `GPIO_GET_CHIPINFO_IOCTL` on a descriptor opened on the
  path: the record, or the `errno` of the failed call. -/
  chipinfo : List Char → Except Int gpiochip_info

/-- The process: open descriptors with the path each was opened on, `errno`
and what was written to standard output. -/
structure Proc where
  fds : List (Nat × List Char)
  errno : Int
  stdout : List Char
deriving DecidableEq

/-- How a call ends: it returns a value, or the process is terminated with a
diagnostic (`bb_perror_msg_and_die`), `errno` of the state being the cause
that is reported. -/
inductive Res (α : Type) where
  | ret (val : α) (s : Proc)
  | die (msg : List Char) (s : Proc)
deriving DecidableEq

/-- The `errno` value `ENOTTY`, inappropriate ioctl for device. -/
def ENOTTY : Int := 25

/-- The `errno` value `ENODEV`, no such device. -/
def ENODEV : Int := 19

/-- The `errno` value `EBADF`, bad file descriptor. -/
def EBADF : Int := 9

/-- The lowest descriptor number not in use, which `open` hands out. -/
def lowest_unused (fds : List (Nat × List Char)) : Nat :=
  ((List.range (fds.length + 1)).find?
    (fun n => !(fds.map Prod.fst).contains n)).getD fds.length

/-- Modelled from the spec: `bb_perror_msg_and_die` of libbb is not part of
the source file; a fatal error terminates the process immediately with a
diagnostic message naming the failing path or operation. -/
def bb_perror_msg_and_die {α : Type} (fmt : List Char) (args : List FmtArg)
    (s : Proc) : Res α :=
  Res.die (c_format fmt args) s

/-- Modelled from the spec: `xopen` of libbb is not part of the source file;
opening fails fatally, reported with the path and the underlying cause. -/
def xopen (env : Env) (path : List Char) (s : Proc) : Res Nat :=
  match env.open_err path with
  | some e =>
    bb_perror_msg_and_die "can't open '%s'".toList [FmtArg.str path]
      { s with errno := e }
  | none =>
    let fd := lowest_unused s.fds
    Res.ret fd { s with fds := (fd, path) :: s.fds }

/-- Modelled from the spec: `xfstat` of libbb is not part of the source
file; a failing status call is fatal and reported with the path. -/
def xfstat (env : Env) (path : List Char) (s : Proc) : Res stat :=
  match env.fstat path with
  | none => bb_perror_msg_and_die "%s".toList [FmtArg.str path] s
  | some st => Res.ret st s

/-- Modelled from the spec: `open_read_close` of libbb is not part of the
source file; it reads the attribute file's content, at most `size` bytes,
into the buffer. The bytes of the buffer beyond what was read keep their
previous value, and nothing is written when the file cannot be read. -/
def open_read_close (env : Env) (filename : List Char) (buf : List Char)
    (size : Nat) : List Char :=
  match env.read_file filename with
  | none => buf
  | some bytes => bytes.take size ++ buf.drop (min size bytes.length)

/-- The call `close(fd)`. -/
def close (fd : Nat) (s : Proc) : Proc :=
  if (s.fds.map Prod.fst).contains fd then
    { s with fds := s.fds.filter (fun e => e.1 != fd) }
  else { s with errno := EBADF }

/-! ## gpio-tools.c -/

/-- The path of the sysfs attribute built in `gpiochip_open`. -/
def sysfsp (path : List Char) : List Char :=
  xasprintf "/sys/bus/gpio/devices/%s/dev".toList [FmtArg.str (bb_basename path)]

/-- The text `devstr` built in `gpiochip_open` (`char devstr[16]`). -/
def devstr (statbuf : stat) : List Char :=
  snprintf 16 "%u:%u".toList [FmtArg.uint statbuf.st_major, FmtArg.uint statbuf.st_minor]

/-- The function `gpiochip_open`: open the file under `path` and make sure it
is a character device associated with a GPIO chip. -/
def gpiochip_open (env : Env) (path : List Char) (s : Proc) : Res Nat :=
  match xopen env path s with
  | Res.die msg s1 => Res.die msg s1
  | Res.ret fd s1 =>
    match xfstat env path s1 with
    | Res.die msg s2 => Res.die msg s2
    | Res.ret statbuf s2 =>
      if !statbuf.st_is_chr then
        bb_perror_msg_and_die "unable to open %s".toList [FmtArg.str path]
          { s2 with errno := ENOTTY }
      else if !env.access_r (sysfsp path) then
        bb_perror_msg_and_die "unable to open %s".toList [FmtArg.str path]
          { s2 with errno := -ENOTTY }
      else
        let sysfsdev := open_read_close env (sysfsp path) (env.residue path) (16 - 1)
        if strncmp sysfsdev (devstr statbuf) (strlen (devstr statbuf)) ≠ 0 then
          bb_perror_msg_and_die "unable to open %s".toList [FmtArg.str path]
            { s2 with errno := ENODEV }
        else Res.ret fd s2


/-- The function `is_dirent_gpiochip`, the filter handed to `scandir`. -/
def is_dirent_gpiochip (dir : dirent) : Int :=
  if strncmp dir.d_name "gpiochip".toList 8 = 0 then 1 else 0

/-- The comparison `alphasort` of the C library, in the C locale: `strcmp` on
the names. -/
def alphasort (a b : dirent) : Int := strcmp a.d_name b.d_name

/-- What `scandir` makes of the entries it read: those for which the filter
returns non-zero, sorted (`qsort`) with the comparison. -/
def scandir_list (entries : List dirent) (filter : dirent → Int)
    (compar : dirent → dirent → Int) : List dirent :=
  (entries.filter (fun d => filter d != 0)).insertionSort
    (fun a b => compar a b ≤ 0)

/-- The call `scandir(dirp, &namelist, filter, compar)`: the entries of the
directory that the filter keeps, sorted with the comparison; `none` when the
directory cannot be read. -/
def scandir (env : Env) (dirp : List Char) (filter : dirent → Int)
    (compar : dirent → dirent → Int) : Option (List dirent) :=
  (env.dir_entries dirp).map fun entries => scandir_list entries filter compar

/-- The function `get_gpiochip_list`: the sorted chip entries of `/dev` (the
returned count is the length of the list). -/
def get_gpiochip_list (env : Env) (s : Proc) : Res (List dirent) :=
  match scandir env "/dev".toList is_dirent_gpiochip alphasort with
  | none => bb_perror_msg_and_die "/dev".toList [] s
  | some dirs => Res.ret dirs s

/-- A call made by the loop of `for_each_chip`. -/
inductive Event where
  /-- The call `gpiochip_open(path)` returned `fd`. -/
  | opened (path : List Char) (fd : Nat)
  /-- The call `func(fd)` was made, for the chip under `path`. -/
  | applied (path : List Char) (fd : Nat)
  /-- The call `close(fd)` was made, for the chip under `path`. -/
  | closed (path : List Char) (fd : Nat)
deriving DecidableEq

/-- The path that `for_each_chip` builds for an entry. -/
def chip_path (d : dirent) : List Char :=
  xasprintf "/dev/%s".toList [FmtArg.str d.d_name]

/-- The loop of `for_each_chip` over the entries still to visit. The second
component records, in order, the calls the loop made. -/
def for_each_chip_loop (env : Env) (func : Nat → Proc → Res Unit) :
    List dirent → Proc → Res Unit × List Event
  | [], s => (Res.ret () s, [])
  | d :: rest, s =>
    let path := chip_path d
    match gpiochip_open env path s with
    | Res.die msg s1 => (Res.die msg s1, [])
    | Res.ret fd s1 =>
      match func fd s1 with
      | Res.die msg s2 => (Res.die msg s2, [Event.opened path fd, Event.applied path fd])
      | Res.ret _ s2 =>
        let r := for_each_chip_loop env func rest (close fd s2)
        (r.1, Event.opened path fd :: Event.applied path fd :: Event.closed path fd :: r.2)

/-- The function `for_each_chip`. -/
def for_each_chip (env : Env) (func : Nat → Proc → Res Unit) (s : Proc) :
    Res Unit × List Event :=
  match get_gpiochip_list env s with
  | Res.die msg s1 => (Res.die msg s1, [])
  | Res.ret dirs s1 => for_each_chip_loop env func dirs s1

/-- Modelled from the spec: `ioctl_or_perror_and_die` of libbb is not part
of the source file; the call here is the chip-info one
(`GPIO_GET_CHIPINFO_IOCTL`), which yields the chip record or, when the
metadata call fails, terminates the process with the underlying cause. -/
def ioctl_or_perror_and_die_chipinfo (env : Env) (fd : Nat) (s : Proc) :
    Res gpiochip_info :=
  match s.fds.lookup fd with
  | none => bb_perror_msg_and_die "chip info ioctl".toList [] { s with errno := EBADF }
  | some path =>
    match env.chipinfo path with
    | Except.error e =>
      bb_perror_msg_and_die "chip info ioctl".toList [] { s with errno := e }
    | Except.ok info => Res.ret info s

/-- The call `printf(fmt, ...)`: the formatted text goes to standard output. -/
def printf (fmt : List Char) (args : List FmtArg) (s : Proc) : Proc :=
  { s with stdout := s.stdout ++ c_format fmt args }

/-- The function `print_chip_detect`. -/
def print_chip_detect (env : Env) (fd : Nat) (s : Proc) : Res Unit :=
  match ioctl_or_perror_and_die_chipinfo env fd s with
  | Res.die msg s1 => Res.die msg s1
  | Res.ret info s1 =>
    Res.ret () (printf "%s [%s] (%u lines)\n".toList
      [FmtArg.str info.name, FmtArg.str info.label, FmtArg.uint info.lines] s1)

/-- The function `print_chip_info`, whose body is empty. -/
def print_chip_info (_fd : Nat) (s : Proc) : Res Unit := Res.ret () s

/-! ## Specification-side notions -/

/-- The text `<major>:<minor>` of a node's device number, both numbers being
`unsigned int` written in decimal. -/
def dev_text (st : stat) : List Char :=
  Nat.toDigits 10 (st.st_major % 2 ^ 32) ++ ':' :: Nat.toDigits 10 (st.st_minor % 2 ^ 32)

/-- The state right after `path` was opened: the new descriptor is in the
table. -/
def opened_state (path : List Char) (s : Proc) : Proc :=
  { s with fds := (lowest_unused s.fds, path) :: s.fds }

/-- Whether `gpiochip_open` accepts the path; by
`gpiochip_open_ret_of_validates` and `gpiochip_open_die_of_not_validates`
the answer is the same in every process state. -/
def validates (env : Env) (path : List Char) : Bool :=
  match gpiochip_open env path ⟨[], 0, []⟩ with
  | Res.ret _ _ => true
  | Res.die _ _ => false

/-- Whether the operation returns from every call that the loop of
`for_each_chip` makes of it on the entries, started in state `s`: the run is
followed chip by chip, and the answer is `false` when a call of the
operation terminates the process. Calls that are never made, after a failed
validation, are not looked at. -/
def calls_return (env : Env) (func : Nat → Proc → Res Unit) :
    List dirent → Proc → Bool
  | [], _ => true
  | d :: rest, s =>
    match gpiochip_open env (chip_path d) s with
    | Res.die _ _ => true
    | Res.ret fd s1 =>
      match func fd s1 with
      | Res.die _ _ => false
      | Res.ret _ s2 => calls_return env func rest (close fd s2)

/-- The chips to which the operation was applied, in order. -/
def applied_paths : List Event → List (List Char)
  | [] => []
  | Event.applied p _ :: rest => p :: applied_paths rest
  | _ :: rest => applied_paths rest

/-- Number of successful `gpiochip_open` calls in a record. -/
def opens (log : List Event) : Nat :=
  log.countP fun e => match e with
    | Event.opened _ _ => true
    | _ => false

/-- Number of calls of the operation in a record. -/
def calls (log : List Event) : Nat :=
  log.countP fun e => match e with
    | Event.applied _ _ => true
    | _ => false

/-- Number of `close` calls in a record. -/
def closes (log : List Event) : Nat :=
  log.countP fun e => match e with
    | Event.closed _ _ => true
    | _ => false

/-- The record of chips visited one after the other: each is opened, handed
to the operation and closed. -/
def visits : List (dirent × Nat) → List Event
  | [] => []
  | (d, fd) :: rest =>
    Event.opened (chip_path d) fd :: Event.applied (chip_path d) fd ::
      Event.closed (chip_path d) fd :: visits rest

/-- Plain lexicographic order on names: the first position where the names
differ decides, by character code, and a name that is a beginning of another
comes first. Digits are compared as characters, not as numbers. -/
def lex_le : List Char → List Char → Bool
  | [], _ => true
  | _ :: _, [] => false
  | a :: as, b :: bs => if a = b then lex_le as bs else decide (a.toNat < b.toNat)

/-- The chip-name prefix, 8 characters. -/
def chip_name_start : List Char := "gpiochip".toList

/-- The answer of a chip-info call as the spec prints it:
`<name> [<label>] (<line-count> lines)` and a newline. -/
def chip_line (info : gpiochip_info) : List Char :=
  info.name ++ " [".toList ++ info.label ++ "] (".toList ++
    Nat.toDigits 10 info.lines ++ " lines)\n".toList

/-! ## Concrete worlds used in the examples -/

/-- A process with the three standard descriptors open. -/
def proc0 : Proc := ⟨[(0, []), (1, []), (2, [])], 0, []⟩

/-- A world with a single node `node` whose status is `st`, and whose sysfs
attribute holds `attr` (`none`: there is no readable attribute); `res` is
what the array `sysfsdev` holds on entry. -/
def one_node_env (node : List Char) (st : stat) (attr : Option (List Char))
    (res : List Char) : Env where
  open_err := fun p => if p = node then none else some 2
  fstat := fun p => if p = node then some st else none
  access_r := fun p => p = sysfsp node && attr.isSome
  read_file := fun p => if p = sysfsp node then attr else none
  residue := fun _ => res
  dir_entries := fun _ => none
  chipinfo := fun _ => Except.error ENOTTY

/-- A world whose `/dev` holds the given entries and nothing else. -/
def dev_env (entries : List dirent) : Env where
  open_err := fun _ => some 2
  fstat := fun _ => none
  access_r := fun _ => false
  read_file := fun _ => none
  residue := fun _ => []
  dir_entries := fun p => if p = "/dev".toList then some entries else none
  chipinfo := fun _ => Except.error ENOTTY

/-- The path `/dev/gpiochip0`. -/
def dev_gpiochip0 : List Char := "/dev/gpiochip0".toList

/-- The path `/dev/gpiochip1`. -/
def dev_gpiochip1 : List Char := "/dev/gpiochip1".toList

/-- The directory entry `gpiochip0`. -/
def gpiochip0 : dirent := ⟨"gpiochip0".toList, by decide⟩

/-- The directory entry `gpiochip1`. -/
def gpiochip1 : dirent := ⟨"gpiochip1".toList, by decide⟩

/-- The directory entry `gpiochip2`. -/
def gpiochip2 : dirent := ⟨"gpiochip2".toList, by decide⟩

/-- The directory entry `gpiochip10`. -/
def gpiochip10 : dirent := ⟨"gpiochip10".toList, by decide⟩

/-- The directory entry `random.txt`. -/
def random_txt : dirent := ⟨"random.txt".toList, by decide⟩

/-- A world whose `/dev` holds, in this order, `gpiochip1` (a character
device 254:1), `random.txt` and `gpiochip0` (a character device 254:0), both
chips being recorded in sysfs with their device number; `info` is the answer
of the chip-info call on either chip. -/
def two_chip_env (info : Except Int gpiochip_info) : Env where
  open_err := fun p => if p = dev_gpiochip0 ∨ p = dev_gpiochip1 then none else some 2
  fstat := fun p =>
    if p = dev_gpiochip0 then some ⟨true, 254, 0⟩
    else if p = dev_gpiochip1 then some ⟨true, 254, 1⟩
    else none
  access_r := fun p => p = sysfsp dev_gpiochip0 || p = sysfsp dev_gpiochip1
  read_file := fun p =>
    if p = sysfsp dev_gpiochip0 then some "254:0\n".toList
    else if p = sysfsp dev_gpiochip1 then some "254:1\n".toList
    else none
  residue := fun _ => []
  dir_entries := fun p =>
    if p = "/dev".toList then some [gpiochip1, random_txt, gpiochip0] else none
  chipinfo := fun _ => info

/-! ## Lemmas on the string functions -/

theorem toNat_sub_eq_zero_iff (a b : Char) :
    (a.toNat : Int) - (b.toNat : Int) = 0 ↔ a = b := by
  constructor
  · intro h
    have h1 : a.toNat = b.toNat := by omega
    have h2 := congrArg Char.ofNat h1
    simpa using h2
  · rintro rfl
    simp

theorem strncmp_eq_zero_iff_begins (pat : List Char) (hpat : NUL ∉ pat) :
    ∀ buf : List Char, strncmp buf pat pat.length = 0 ↔ pat <+: buf := by
  induction pat with
  | nil => intro buf; simp [strncmp]
  | cons p ps ih =>
    intro buf
    have hp : ¬ NUL = p := fun h => hpat (by simp [h])
    have hps : NUL ∉ ps := fun h => hpat (List.mem_cons_of_mem _ h)
    cases buf with
    | nil => simp [strncmp, toNat_sub_eq_zero_iff, hp]
    | cons b bs =>
      by_cases hbp : b = p
      · subst hbp
        have hb : ¬ b = NUL := fun h => hp h.symm
        simp [strncmp, hb, ih hps bs, List.cons_prefix_cons]
      · have hpb : ¬ p = b := fun h => hbp h.symm
        simp [strncmp, hbp, hpb, toNat_sub_eq_zero_iff, List.cons_prefix_cons]

theorem strlen_eq_length (s : List Char) (hs : NUL ∉ s) : strlen s = s.length := by
  unfold strlen
  congr 1
  rw [List.takeWhile_eq_self_iff]
  intro c hc
  have : c ≠ NUL := fun h => hs (h ▸ hc)
  simpa using this

theorem digitChar_ne_NUL : ∀ k, k < 10 → Nat.digitChar k ≠ NUL := by decide

theorem toDigitsCore_no_NUL (fuel : Nat) :
    ∀ (n : Nat) (ds : List Char), NUL ∉ ds → NUL ∉ Nat.toDigitsCore 10 fuel n ds := by
  induction fuel with
  | zero => intro n ds h; simpa [Nat.toDigitsCore] using h
  | succ k ih =>
    intro n ds h
    have hd : NUL ∉ Nat.digitChar (n % 10) :: ds := by
      intro hm
      rcases List.mem_cons.mp hm with h1 | h1
      · exact digitChar_ne_NUL (n % 10) (Nat.mod_lt _ (by decide)) h1.symm
      · exact h h1
    unfold Nat.toDigitsCore
    by_cases h0 : n / 10 = 0
    · simpa [h0] using hd
    · simp only [h0, if_false]
      exact ih _ _ hd

theorem toDigits_no_NUL (n : Nat) : NUL ∉ Nat.toDigits 10 n :=
  toDigitsCore_no_NUL _ _ _ (by simp)

theorem dev_text_no_NUL (st : stat) : NUL ∉ dev_text st := by
  unfold dev_text
  intro h
  rcases List.mem_append.mp h with h1 | h1
  · exact toDigits_no_NUL _ h1
  · rcases List.mem_cons.mp h1 with h2 | h2
    · exact absurd h2 (by decide)
    · exact toDigits_no_NUL _ h2

theorem digitChar_ne_newline : ∀ k, k < 10 → Nat.digitChar k ≠ '\n' := by decide

theorem toDigitsCore_no_newline (fuel : Nat) :
    ∀ (n : Nat) (ds : List Char), '\n' ∉ ds → '\n' ∉ Nat.toDigitsCore 10 fuel n ds := by
  induction fuel with
  | zero => intro n ds h; simpa [Nat.toDigitsCore] using h
  | succ k ih =>
    intro n ds h
    have hd : '\n' ∉ Nat.digitChar (n % 10) :: ds := by
      intro hm
      rcases List.mem_cons.mp hm with h1 | h1
      · exact digitChar_ne_newline (n % 10) (Nat.mod_lt _ (by decide)) h1.symm
      · exact h h1
    unfold Nat.toDigitsCore
    by_cases h0 : n / 10 = 0
    · simpa [h0] using hd
    · simp only [h0, if_false]
      exact ih _ _ hd

theorem dev_text_no_newline (st : stat) : '\n' ∉ dev_text st := by
  unfold dev_text
  intro h
  rcases List.mem_append.mp h with h1 | h1
  · exact toDigitsCore_no_newline _ _ _ (by simp) h1
  · rcases List.mem_cons.mp h1 with h2 | h2
    · exact absurd h2 (by decide)
    · exact toDigitsCore_no_newline _ _ _ (by simp) h2

theorem toDigitsCore_length_le (fuel : Nat) :
    ∀ (n k : Nat) (ds : List Char), n < 10 ^ (k + 1) →
      (Nat.toDigitsCore 10 fuel n ds).length ≤ ds.length + (k + 1) := by
  induction fuel with
  | zero => intro n k ds _; simp [Nat.toDigitsCore]
  | succ f ih =>
    intro n k ds h
    unfold Nat.toDigitsCore
    by_cases h0 : n / 10 = 0
    · simp [h0]
    · simp only [h0, if_false]
      cases k with
      | zero =>
        exfalso
        apply h0
        have h9 : n < 10 := by simpa using h
        omega
      | succ k2 =>
        have h2 : n / 10 < 10 ^ (k2 + 1) := by
          have h3 : n < 10 ^ (k2 + 1) * 10 := by
            rw [← pow_succ]
            exact h
          omega
        have h4 := ih (n / 10) k2 (Nat.digitChar (n % 10) :: ds) h2
        simp only [List.length_cons] at h4
        omega

theorem toDigits_length_le (n k : Nat) (h : n < 10 ^ (k + 1)) :
    (Nat.toDigits 10 n).length ≤ k + 1 := by
  have h1 := toDigitsCore_length_le (n + 1) n k [] h
  simpa [Nat.toDigits] using h1

/-- The text of a Linux device number, major below 2^12 and minor below
2^20, has at most 12 characters and so fits the 15 of `devstr`. -/
theorem dev_text_length_le_of_linux (st : stat) (hmaj : st.st_major < 4096)
    (hmin : st.st_minor < 1048576) : (dev_text st).length ≤ 15 := by
  have h1 : st.st_major % 2 ^ 32 = st.st_major := Nat.mod_eq_of_lt (by omega)
  have h2 : st.st_minor % 2 ^ 32 = st.st_minor := Nat.mod_eq_of_lt (by omega)
  have h3 := toDigits_length_le st.st_major 3 (by omega)
  have h4 := toDigits_length_le st.st_minor 6 (by omega)
  unfold dev_text
  rw [h1, h2]
  simp only [List.length_append, List.length_cons]
  omega

theorem devstr_eq (st : stat) : devstr st = (dev_text st).take 15 := by
  simp [devstr, snprintf, c_format, dev_text]

theorem devstr_no_NUL (st : stat) : NUL ∉ devstr st := by
  rw [devstr_eq]
  exact fun h => dev_text_no_NUL st (List.mem_of_mem_take h)

theorem devstr_length_le (st : stat) : (devstr st).length ≤ 15 := by
  rw [devstr_eq]
  simp

/-! ## Lemmas on `gpiochip_open` -/

theorem begins_sysfsdev_of_begins (d content r : List Char) (hd : d.length ≤ 15)
    (h : d <+: content) : d <+: content.take 15 ++ r := by
  have h1 : d = content.take d.length := List.prefix_iff_eq_take.mp h
  have h2 : content.take d.length <+: content.take 15 := List.take_prefix_take_left _ hd
  rw [h1]
  exact h2.trans (List.prefix_append _ _)

theorem begins_or_of_begins_sysfsdev (d content r : List Char) (hd : d.length ≤ 15)
    (h : d <+: content.take 15 ++ r) : d <+: content ∨ content <+: d := by
  have ht : content.take 15 <+: content.take 15 ++ r := List.prefix_append _ _
  rcases List.prefix_or_prefix_of_prefix h ht with h1 | h1
  · exact Or.inl (h1.trans (List.take_prefix _ _))
  · by_cases hc : content.length ≤ 15
    · rw [List.take_of_length_le hc] at h1
      exact Or.inr h1
    · have hl : (content.take 15).length = 15 := by
        rw [List.length_take]; omega
      have hle : d.length ≤ (content.take 15).length := by omega
      have heq : content.take 15 = d := h1.eq_of_length_le hle
      exact Or.inl (heq ▸ List.take_prefix _ _)

theorem open_read_close_of_read (env : Env) (f buf content : List Char) (size : Nat)
    (h : env.read_file f = some content) :
    open_read_close env f buf size = content.take size ++ buf.drop (min size content.length) := by
  simp [open_read_close, h]

/-- With the node open, a character device and its attribute accessible, the
outcome is decided by the comparison of `devstr` with the buffer. -/
theorem gpiochip_open_compare (env : Env) (path : List Char) (s : Proc) (st : stat)
    (hopen : env.open_err path = none) (hstat : env.fstat path = some st)
    (hchr : st.st_is_chr = true) (hacc : env.access_r (sysfsp path) = true) :
    gpiochip_open env path s =
      if devstr st <+: open_read_close env (sysfsp path) (env.residue path) 15 then
        Res.ret (lowest_unused s.fds) (opened_state path s)
      else
        Res.die ("unable to open ".toList ++ path)
          { opened_state path s with errno := ENODEV } := by
  have hcmp := strncmp_eq_zero_iff_begins (devstr st) (devstr_no_NUL st)
    (open_read_close env (sysfsp path) (env.residue path) 15)
  rw [← strlen_eq_length _ (devstr_no_NUL st)] at hcmp
  by_cases hp : devstr st <+: open_read_close env (sysfsp path) (env.residue path) 15
  · have h0 := hcmp.mpr hp
    simp [gpiochip_open, xopen, xfstat, hopen, hstat, hchr, hacc, h0, hp, opened_state]
  · have h0 : ¬ strncmp (open_read_close env (sysfsp path) (env.residue path) 15)
        (devstr st) (strlen (devstr st)) = 0 := fun h => hp (hcmp.mp h)
    simp [gpiochip_open, xopen, xfstat, hopen, hstat, hchr, hacc, h0, hp, opened_state,
      bb_perror_msg_and_die, c_format]

/-- The branch taken when the target is not a character device. -/
theorem gpiochip_open_not_chr (env : Env) (path : List Char) (s : Proc) (st : stat)
    (hopen : env.open_err path = none) (hstat : env.fstat path = some st)
    (hchr : st.st_is_chr = false) :
    gpiochip_open env path s =
      Res.die ("unable to open ".toList ++ path)
        { opened_state path s with errno := ENOTTY } := by
  simp [gpiochip_open, xopen, xfstat, hopen, hstat, hchr, opened_state,
    bb_perror_msg_and_die, c_format]

/-- The branch taken when the sysfs attribute is not accessible. -/
theorem gpiochip_open_no_sysfs (env : Env) (path : List Char) (s : Proc) (st : stat)
    (hopen : env.open_err path = none) (hstat : env.fstat path = some st)
    (hchr : st.st_is_chr = true) (hacc : env.access_r (sysfsp path) = false) :
    gpiochip_open env path s =
      Res.die ("unable to open ".toList ++ path)
        { opened_state path s with errno := -ENOTTY } := by
  simp [gpiochip_open, xopen, xfstat, hopen, hstat, hchr, hacc, opened_state,
    bb_perror_msg_and_die, c_format]

theorem gpiochip_open_ret_of_validates (env : Env) (path : List Char) (s : Proc)
    (h : validates env path = true) :
    gpiochip_open env path s = Res.ret (lowest_unused s.fds) (opened_state path s) := by
  unfold validates at h
  cases h1 : env.open_err path with
  | some e => simp [gpiochip_open, xopen, h1, bb_perror_msg_and_die] at h
  | none =>
    cases h2 : env.fstat path with
    | none => simp [gpiochip_open, xopen, xfstat, h1, h2, bb_perror_msg_and_die] at h
    | some st =>
      by_cases hchr : st.st_is_chr = true
      · by_cases hacc : env.access_r (sysfsp path) = true
        · rw [gpiochip_open_compare env path _ st h1 h2 hchr hacc] at h
          rw [gpiochip_open_compare env path s st h1 h2 hchr hacc]
          by_cases hp : devstr st <+: open_read_close env (sysfsp path) (env.residue path) 15
          · simp [hp]
          · simp [hp] at h
        · rw [gpiochip_open_no_sysfs env path _ st h1 h2 hchr (by simpa using hacc)] at h
          simp at h
      · rw [gpiochip_open_not_chr env path _ st h1 h2 (by simpa using hchr)] at h
        simp at h

theorem gpiochip_open_die_of_not_validates (env : Env) (path : List Char) (s : Proc)
    (h : validates env path = false) :
    ∃ msg s1, gpiochip_open env path s = Res.die msg s1 := by
  unfold validates at h
  cases h1 : env.open_err path with
  | some e =>
    simp only [gpiochip_open, xopen, h1, bb_perror_msg_and_die]
    exact ⟨_, _, rfl⟩
  | none =>
    cases h2 : env.fstat path with
    | none =>
      simp only [gpiochip_open, xopen, xfstat, h1, h2, bb_perror_msg_and_die]
      exact ⟨_, _, rfl⟩
    | some st =>
      by_cases hchr : st.st_is_chr = true
      · by_cases hacc : env.access_r (sysfsp path) = true
        · rw [gpiochip_open_compare env path _ st h1 h2 hchr hacc] at h
          rw [gpiochip_open_compare env path s st h1 h2 hchr hacc]
          by_cases hp : devstr st <+: open_read_close env (sysfsp path) (env.residue path) 15
          · simp [hp] at h
          · rw [if_neg hp]
            exact ⟨_, _, rfl⟩
        · exact ⟨_, _, gpiochip_open_no_sysfs env path s st h1 h2 hchr (by simpa using hacc)⟩
      · exact ⟨_, _, gpiochip_open_not_chr env path s st h1 h2 (by simpa using hchr)⟩

/-! ## Lemmas on the loop of `for_each_chip` -/

theorem loop_cons_of_not_validates (env : Env) (func : Nat → Proc → Res Unit)
    (d : dirent) (rest : List dirent) (s : Proc)
    (hv : validates env (chip_path d) = false) :
    (for_each_chip_loop env func (d :: rest) s).2 = [] := by
  obtain ⟨msg, s1, hd⟩ := gpiochip_open_die_of_not_validates env _ s hv
  simp [for_each_chip_loop, hd]

theorem loop_cons_of_func_die (env : Env) (func : Nat → Proc → Res Unit)
    (d : dirent) (rest : List dirent) (s : Proc) (msg : List Char) (s2 : Proc)
    (hv : validates env (chip_path d) = true)
    (hf : func (lowest_unused s.fds) (opened_state (chip_path d) s) = Res.die msg s2) :
    for_each_chip_loop env func (d :: rest) s =
      (Res.die msg s2,
        [Event.opened (chip_path d) (lowest_unused s.fds),
         Event.applied (chip_path d) (lowest_unused s.fds)]) := by
  have ho := gpiochip_open_ret_of_validates env _ s hv
  simp [for_each_chip_loop, ho, hf]

theorem loop_cons_of_func_ret (env : Env) (func : Nat → Proc → Res Unit)
    (d : dirent) (rest : List dirent) (s : Proc) (u : Unit) (s2 : Proc)
    (hv : validates env (chip_path d) = true)
    (hf : func (lowest_unused s.fds) (opened_state (chip_path d) s) = Res.ret u s2) :
    for_each_chip_loop env func (d :: rest) s =
      ((for_each_chip_loop env func rest (close (lowest_unused s.fds) s2)).1,
        Event.opened (chip_path d) (lowest_unused s.fds) ::
        Event.applied (chip_path d) (lowest_unused s.fds) ::
        Event.closed (chip_path d) (lowest_unused s.fds) ::
        (for_each_chip_loop env func rest (close (lowest_unused s.fds) s2)).2) := by
  have ho := gpiochip_open_ret_of_validates env _ s hv
  simp [for_each_chip_loop, ho, hf]

theorem applied_paths_loop_initial (env : Env) (func : Nat → Proc → Res Unit) :
    ∀ (dirs : List dirent) (s : Proc),
      applied_paths (for_each_chip_loop env func dirs s).2 <+:
        (dirs.takeWhile fun d => validates env (chip_path d)).map chip_path := by
  intro dirs
  induction dirs with
  | nil => intro s; simp [for_each_chip_loop, applied_paths]
  | cons d rest ih =>
    intro s
    cases hv : validates env (chip_path d) with
    | false => simp [loop_cons_of_not_validates env func d rest s hv, applied_paths]
    | true =>
      cases hf : func (lowest_unused s.fds) (opened_state (chip_path d) s) with
      | die msg s2 =>
        simp [loop_cons_of_func_die env func d rest s msg s2 hv hf, applied_paths, hv,
          List.takeWhile_cons, List.cons_prefix_cons]
      | ret u s2 =>
        simp only [loop_cons_of_func_ret env func d rest s u s2 hv hf, applied_paths, hv,
          List.takeWhile_cons, List.map_cons, List.cons_prefix_cons, if_true, true_and]
        exact ih _

theorem calls_return_cons (env : Env) (func : Nat → Proc → Res Unit)
    (d : dirent) (rest : List dirent) (s : Proc)
    (hv : validates env (chip_path d) = true)
    (hr : calls_return env func (d :: rest) s = true) :
    ∃ s2, func (lowest_unused s.fds) (opened_state (chip_path d) s) = Res.ret () s2 ∧
      calls_return env func rest (close (lowest_unused s.fds) s2) = true := by
  have ho := gpiochip_open_ret_of_validates env _ s hv
  cases hf : func (lowest_unused s.fds) (opened_state (chip_path d) s) with
  | die msg s2 => simp [calls_return, ho, hf] at hr
  | ret u s2 =>
    refine ⟨s2, rfl, ?_⟩
    simpa [calls_return, ho, hf] using hr

/-- An operation that returns whatever it is given returns from every call
of a run. -/
theorem calls_return_of_always_returns (env : Env) (func : Nat → Proc → Res Unit)
    (hfunc : ∀ fd s, ∃ s1, func fd s = Res.ret () s1) :
    ∀ (dirs : List dirent) (s : Proc), calls_return env func dirs s = true := by
  intro dirs
  induction dirs with
  | nil => intro s; rfl
  | cons d rest ih =>
    intro s
    cases ho : gpiochip_open env (chip_path d) s with
    | die msg s1 => simp [calls_return, ho]
    | ret fd s1 =>
      obtain ⟨s2, hf⟩ := hfunc fd s1
      simp [calls_return, ho, hf, ih]

theorem applied_paths_loop_eq (env : Env) (func : Nat → Proc → Res Unit) :
    ∀ (dirs : List dirent) (s : Proc), calls_return env func dirs s = true →
      applied_paths (for_each_chip_loop env func dirs s).2 =
        (dirs.takeWhile fun d => validates env (chip_path d)).map chip_path := by
  intro dirs
  induction dirs with
  | nil => intro s _; simp [for_each_chip_loop, applied_paths]
  | cons d rest ih =>
    intro s hr
    cases hv : validates env (chip_path d) with
    | false => simp [loop_cons_of_not_validates env func d rest s hv, applied_paths, hv]
    | true =>
      obtain ⟨s2, hf, hr2⟩ := calls_return_cons env func d rest s hv hr
      simp only [loop_cons_of_func_ret env func d rest s () s2 hv hf, applied_paths, hv,
        List.takeWhile_cons, List.map_cons, if_true]
      rw [ih _ hr2]

theorem applied_after_opened_loop (env : Env) (func : Nat → Proc → Res Unit) :
    ∀ (dirs : List dirent) (s : Proc) (pre post : List Event) (p : List Char) (fd : Nat),
      (for_each_chip_loop env func dirs s).2 = pre ++ Event.applied p fd :: post →
      validates env p = true ∧ ∃ pre1, pre = pre1 ++ [Event.opened p fd] := by
  intro dirs
  induction dirs with
  | nil => intro s pre post p fd h; simp [for_each_chip_loop] at h
  | cons d rest ih =>
    intro s pre post p fd h
    cases hv : validates env (chip_path d) with
    | false => simp [loop_cons_of_not_validates env func d rest s hv] at h
    | true =>
      cases hf : func (lowest_unused s.fds) (opened_state (chip_path d) s) with
      | die msg s2 =>
        rw [loop_cons_of_func_die env func d rest s msg s2 hv hf] at h
        rcases pre with _ | ⟨e1, _ | ⟨e2, pre2⟩⟩
        · simp at h
        · simp at h
          obtain ⟨h1, h2, _⟩ := h
          obtain ⟨rfl, rfl⟩ := h2
          exact ⟨hv, [], by simp [h1]⟩
        · simp at h
      | ret u s2 =>
        rw [loop_cons_of_func_ret env func d rest s u s2 hv hf] at h
        rcases pre with _ | ⟨e1, _ | ⟨e2, _ | ⟨e3, pre3⟩⟩⟩
        · simp at h
        · simp at h
          obtain ⟨h1, h2, _⟩ := h
          obtain ⟨rfl, rfl⟩ := h2
          exact ⟨hv, [], by simp [h1]⟩
        · simp at h
        · simp only [List.cons_append, List.cons.injEq] at h
          obtain ⟨h1, h2, h3, h4⟩ := h
          obtain ⟨hval, pre1, hpre⟩ := ih _ pre3 post p fd h4
          exact ⟨hval, e1 :: e2 :: e3 :: pre1, by simp [hpre]⟩

theorem loop_of_all_validate (env : Env) (func : Nat → Proc → Res Unit) :
    ∀ (dirs : List dirent) (s : Proc),
      (∀ d ∈ dirs, validates env (chip_path d) = true) →
      calls_return env func dirs s = true →
      (∃ s1, (for_each_chip_loop env func dirs s).1 = Res.ret () s1) ∧
      ∃ fds : List Nat, fds.length = dirs.length ∧
        (for_each_chip_loop env func dirs s).2 = visits (dirs.zip fds) := by
  intro dirs
  induction dirs with
  | nil => intro s _ _; exact ⟨⟨s, rfl⟩, [], rfl, rfl⟩
  | cons d rest ih =>
    intro s hall hr
    have hv : validates env (chip_path d) = true := hall d (List.mem_cons_self _ _)
    obtain ⟨s2, hf, hr2⟩ := calls_return_cons env func d rest s hv hr
    obtain ⟨hret, fds, hlen, hlog⟩ := ih (close (lowest_unused s.fds) s2)
      (fun x hx => hall x (List.mem_cons_of_mem _ hx)) hr2
    rw [loop_cons_of_func_ret env func d rest s () s2 hv hf]
    refine ⟨hret, lowest_unused s.fds :: fds, by simp [hlen], ?_⟩
    show _ = visits ((d, lowest_unused s.fds) :: rest.zip fds)
    simp only [visits, hlog]

theorem visits_counts (l : List (dirent × Nat)) :
    opens (visits l) = l.length ∧ calls (visits l) = l.length ∧
      closes (visits l) = l.length := by
  induction l with
  | nil => simp [visits, opens, calls, closes]
  | cons x rest ih =>
    obtain ⟨d, fd⟩ := x
    obtain ⟨h1, h2, h3⟩ := ih
    simp only [opens, calls, closes] at h1 h2 h3
    simp [visits, opens, calls, closes, List.countP_cons, h1, h2, h3]

theorem visits_initial_balance (l : List (dirent × Nat)) :
    ∀ pre : List Event, pre <+: visits l →
      closes pre ≤ opens pre ∧ opens pre ≤ closes pre + 1 := by
  induction l with
  | nil =>
    intro pre h
    have : pre = [] := by simpa [visits] using h
    simp [this, opens, closes]
  | cons x rest ih =>
    obtain ⟨d, fd⟩ := x
    intro pre h
    rcases pre with _ | ⟨e1, _ | ⟨e2, _ | ⟨e3, pre3⟩⟩⟩
    · simp [opens, closes]
    · simp only [visits, List.cons_prefix_cons] at h
      obtain ⟨rfl, _⟩ := h
      simp [opens, closes, List.countP_cons]
    · simp only [visits, List.cons_prefix_cons] at h
      obtain ⟨rfl, rfl, _⟩ := h
      simp [opens, closes, List.countP_cons]
    · simp only [visits, List.cons_prefix_cons] at h
      obtain ⟨rfl, rfl, rfl, h4⟩ := h
      have hb := ih pre3 h4
      simp only [opens, closes] at hb
      simp only [opens, closes, List.countP_cons]
      simp
      omega

/-! ## Device validation: claims C1 to C4 -/

/-- Whatever the attribute holds, as long as the text `<major>:<minor>` has
at most 15 characters and the content is not a proper beginning of it,
`gpiochip_open` returns the descriptor exactly when that text is a prefix of
the content. -/
theorem open_returns_iff_of_not_short (env : Env) (path : List Char) (s : Proc)
    (st : stat) (content : List Char)
    (hopen : env.open_err path = none) (hstat : env.fstat path = some st)
    (hchr : st.st_is_chr = true) (hacc : env.access_r (sysfsp path) = true)
    (hread : env.read_file (sysfsp path) = some content)
    (hlen : (dev_text st).length ≤ 15)
    (hshort : content <+: dev_text st → content = dev_text st) :
    (gpiochip_open env path s = Res.ret (lowest_unused s.fds) (opened_state path s)
      ↔ dev_text st <+: content) ∧
    ((∃ fd s1, gpiochip_open env path s = Res.ret fd s1) ↔ dev_text st <+: content) := by
  have hd : devstr st = dev_text st := by
    rw [devstr_eq, List.take_of_length_le hlen]
  have hbuf := open_read_close_of_read env (sysfsp path) (env.residue path) content 15 hread
  have hkey : devstr st <+: open_read_close env (sysfsp path) (env.residue path) 15
      ↔ dev_text st <+: content := by
    rw [hbuf, hd]
    constructor
    · intro h
      rcases begins_or_of_begins_sysfsdev _ _ _ hlen h with h1 | h1
      · exact h1
      · rw [hshort h1]
    · exact begins_sysfsdev_of_begins _ _ _ hlen
  have hres := gpiochip_open_compare env path s st hopen hstat hchr hacc
  refine ⟨?_, ?_⟩
  · rw [hres]
    by_cases hp : devstr st <+: open_read_close env (sysfsp path) (env.residue path) 15
    · simp [hp, hkey.mp hp]
    · have hn : ¬ dev_text st <+: content := fun h => hp (hkey.mpr h)
      simp [hp, hn]
  · rw [hres]
    by_cases hp : devstr st <+: open_read_close env (sysfsp path) (env.residue path) 15
    · simp [hp, hkey.mp hp]
    · have hn : ¬ dev_text st <+: content := fun h => hp (hkey.mpr h)
      simp [hp, hn]

/-- C1. For every path that opens as a character device and whose sysfs
attribute is readable and holds what the kernel writes there, the text
`<M>:<m>` of a device number followed by a newline, `gpiochip_open` returns
the descriptor that `xopen` opened exactly when the text `<major>:<minor>`
of the node's own device number is a prefix of the attribute's content; in
particular it returns that descriptor when the attribute holds the node's
own device number. The node's text is one that `devstr` can hold, at most 15
characters, as that of every Linux device number is
(`dev_text_length_le_of_linux`). -/
theorem gpiochip_open_validates_kernel_attribute (env : Env) (path : List Char)
    (s : Proc) (st st2 : stat) (content : List Char)
    (hopen : env.open_err path = none) (hstat : env.fstat path = some st)
    (hchr : st.st_is_chr = true) (hacc : env.access_r (sysfsp path) = true)
    (hread : env.read_file (sysfsp path) = some content)
    (hattr : content = dev_text st2 ++ ['\n'])
    (hlen : (dev_text st).length ≤ 15) :
    xopen env path s = Res.ret (lowest_unused s.fds) (opened_state path s) ∧
    (gpiochip_open env path s = Res.ret (lowest_unused s.fds) (opened_state path s)
      ↔ dev_text st <+: content) ∧
    ((∃ fd s1, gpiochip_open env path s = Res.ret fd s1) ↔ dev_text st <+: content) ∧
    (dev_text st2 = dev_text st →
      gpiochip_open env path s = Res.ret (lowest_unused s.fds) (opened_state path s)) := by
  have hshort : content <+: dev_text st → content = dev_text st := by
    intro h
    have hmem : '\n' ∈ content := by simp [hattr]
    exact absurd (h.subset hmem) (dev_text_no_newline st)
  obtain ⟨h1, h2⟩ := open_returns_iff_of_not_short env path s st content hopen hstat hchr
    hacc hread hlen hshort
  refine ⟨by simp [xopen, hopen, opened_state], h1, h2, ?_⟩
  intro heq
  apply h1.mpr
  rw [hattr, heq]
  exact List.prefix_append _ _

/-- Node 254:0 whose attribute holds `254:0` and a newline: validation
succeeds and returns descriptor 3, the one just opened. -/
theorem gpiochip_open_validates_kernel_attribute_witness :
    gpiochip_open (one_node_env dev_gpiochip0 ⟨true, 254, 0⟩ (some "254:0\n".toList) [])
      dev_gpiochip0 proc0 = Res.ret 3 (opened_state dev_gpiochip0 proc0) :=
  (gpiochip_open_validates_kernel_attribute
    (one_node_env dev_gpiochip0 ⟨true, 254, 0⟩ (some "254:0\n".toList) [])
    dev_gpiochip0 proc0 ⟨true, 254, 0⟩ ⟨true, 254, 0⟩ "254:0\n".toList
    (by decide) (by decide) (by decide) (by decide) (by decide) (by decide)
    (dev_text_length_le_of_linux _ (by decide) (by decide))).2.2.2 rfl

/-- The mismatch branch. For a character device node with a readable sysfs
attribute, when the attribute's content and the first 15 characters of
`<major>:<minor>` differ at a position both of them have (neither is a
prefix of the other), `gpiochip_open` terminates with `ENODEV`. -/
theorem gpiochip_open_mismatch_enodev (env : Env) (path : List Char) (s : Proc)
    (st : stat) (content : List Char)
    (hopen : env.open_err path = none) (hstat : env.fstat path = some st)
    (hchr : st.st_is_chr = true) (hacc : env.access_r (sysfsp path) = true)
    (hread : env.read_file (sysfsp path) = some content)
    (h1 : ¬ (dev_text st).take 15 <+: content)
    (h2 : ¬ content <+: (dev_text st).take 15) :
    gpiochip_open env path s =
      Res.die ("unable to open ".toList ++ path)
        { opened_state path s with errno := ENODEV } := by
  have hbuf := open_read_close_of_read env (sysfsp path) (env.residue path) content 15 hread
  have hp : ¬ devstr st <+: open_read_close env (sysfsp path) (env.residue path) 15 := by
    rw [hbuf]
    intro h
    rcases begins_or_of_begins_sysfsdev _ _ _ (devstr_length_le st) h with h3 | h3
    · exact h1 (devstr_eq st ▸ h3)
    · exact h2 (devstr_eq st ▸ h3)
  rw [gpiochip_open_compare env path s st hopen hstat hchr hacc]
  simp [hp]

/-- C2, the code at the failing input. Node 254:1 whose attribute records
the device number 254:10, which disagrees with the node's: the comparison
stops after the five characters of `254:1`, finds them equal, and
`gpiochip_open` returns descriptor 3 where the claim, and the comment above
the comparison, ask for the failure `ENODEV`. A disagreement within those
characters, node 254:0 against the record 254:1, is detected and reported
with `ENODEV` (19). -/
theorem gpiochip_open_accepts_longer_minor :
    "254:10\n".toList = dev_text ⟨true, 254, 10⟩ ++ ['\n'] ∧
    ((254, 10) : Nat × Nat) ≠ (254, 1) ∧
    gpiochip_open
      (one_node_env dev_gpiochip1 ⟨true, 254, 1⟩ (some "254:10\n".toList) [])
      dev_gpiochip1 proc0 =
      Res.ret 3 (opened_state dev_gpiochip1 proc0) ∧
    gpiochip_open (one_node_env dev_gpiochip0 ⟨true, 254, 0⟩ (some "254:1\n".toList) [])
      dev_gpiochip0 proc0 =
      Res.die "unable to open /dev/gpiochip0".toList
        ⟨[(3, dev_gpiochip0), (0, []), (1, []), (2, [])], 19, []⟩ := by
  decide

/-- C3, the code at the failing input. A character device without a readable
sysfs attribute is reported with `errno` -25, that is `-ENOTTY`, whereas a
path that is not a character device is reported with 25, `ENOTTY`. -/
theorem gpiochip_open_no_sysfs_errno :
    gpiochip_open (one_node_env dev_gpiochip0 ⟨true, 254, 0⟩ none []) dev_gpiochip0 proc0 =
      Res.die "unable to open /dev/gpiochip0".toList
        ⟨[(3, dev_gpiochip0), (0, []), (1, []), (2, [])], -25, []⟩ ∧
    gpiochip_open (one_node_env dev_gpiochip0 ⟨false, 0, 0⟩ none []) dev_gpiochip0 proc0 =
      Res.die "unable to open /dev/gpiochip0".toList
        ⟨[(3, dev_gpiochip0), (0, []), (1, []), (2, [])], 25, []⟩ ∧
    ENOTTY = 25 := by
  decide

/-- C4 (as amended). On every failure branch of `gpiochip_open` (not a
character device, attribute not accessible, comparison failed) the call does
not return: the process is terminated with the diagnostic
`unable to open <path>`, and the descriptor opened at the start of the call
is still in the descriptor table at that moment; the code closes nothing. -/
theorem gpiochip_open_failure_keeps_descriptor (env : Env) (path : List Char)
    (s : Proc) (st : stat)
    (hopen : env.open_err path = none) (hstat : env.fstat path = some st)
    (hfail : st.st_is_chr = false ∨ env.access_r (sysfsp path) = false ∨
      ¬ devstr st <+: open_read_close env (sysfsp path) (env.residue path) 15) :
    ∃ s1, gpiochip_open env path s = Res.die ("unable to open ".toList ++ path) s1 ∧
      s1.fds = (lowest_unused s.fds, path) :: s.fds := by
  by_cases hchr : st.st_is_chr = true
  · by_cases hacc : env.access_r (sysfsp path) = true
    · have hp : ¬ devstr st <+: open_read_close env (sysfsp path) (env.residue path) 15 := by
        rcases hfail with h | h | h
        · simp [hchr] at h
        · simp [hacc] at h
        · exact h
      refine ⟨{ opened_state path s with errno := ENODEV }, ?_, rfl⟩
      rw [gpiochip_open_compare env path s st hopen hstat hchr hacc]
      simp [hp]
    · refine ⟨{ opened_state path s with errno := -ENOTTY }, ?_, rfl⟩
      exact gpiochip_open_no_sysfs env path s st hopen hstat hchr (by simpa using hacc)
  · refine ⟨{ opened_state path s with errno := ENOTTY }, ?_, rfl⟩
    exact gpiochip_open_not_chr env path s st hopen hstat (by simpa using hchr)

/-- A regular file: the call dies and descriptor 3 stays in the table. -/
theorem gpiochip_open_failure_keeps_descriptor_witness :
    ∃ s1, gpiochip_open (one_node_env "/tmp/file".toList ⟨false, 0, 0⟩ none [])
        "/tmp/file".toList proc0 = Res.die ("unable to open ".toList ++ "/tmp/file".toList) s1 ∧
      s1.fds = (lowest_unused proc0.fds, "/tmp/file".toList) :: proc0.fds :=
  gpiochip_open_failure_keeps_descriptor
    (one_node_env "/tmp/file".toList ⟨false, 0, 0⟩ none [])
    "/tmp/file".toList proc0 ⟨false, 0, 0⟩ (by decide) (by decide) (Or.inl rfl)

/-- C4, counterexample. Validation of a regular file fails, and in the state
in which the failure is reported descriptor 3, opened at the start of the
call, is still open. -/
theorem gpiochip_open_failure_counterexample :
    xopen (one_node_env "/tmp/file".toList ⟨false, 0, 0⟩ none []) "/tmp/file".toList proc0 =
      Res.ret 3 ⟨[(3, "/tmp/file".toList), (0, []), (1, []), (2, [])], 0, []⟩ ∧
    gpiochip_open (one_node_env "/tmp/file".toList ⟨false, 0, 0⟩ none [])
      "/tmp/file".toList proc0 =
      Res.die "unable to open /tmp/file".toList
        ⟨[(3, "/tmp/file".toList), (0, []), (1, []), (2, [])], 25, []⟩ ∧
    (3, "/tmp/file".toList) ∈
      ([(3, "/tmp/file".toList), (0, []), (1, []), (2, [])] : List (Nat × List Char)) := by
  decide

/-! ## The visitor: claims C5 and C6 -/

/-- C5 (as amended). For every enumerated chip list `dirs` and every per-chip
operation, the chips to which `for_each_chip` applies the operation form a
beginning of the part of `dirs` that ends just before the first chip whose
validation fails; every call of the operation comes right after the
`gpiochip_open` call that returned its descriptor, for a chip that
validates; and when the operation returns from every call that the run
makes of it, the chips it is applied to are exactly that part of `dirs`. -/
theorem for_each_chip_applies_to_valid_chips (env : Env)
    (func : Nat → Proc → Res Unit) (s : Proc) (dirs : List dirent)
    (hlist : get_gpiochip_list env s = Res.ret dirs s) :
    applied_paths (for_each_chip env func s).2 <+:
      (dirs.takeWhile fun d => validates env (chip_path d)).map chip_path ∧
    (∀ (pre post : List Event) (p : List Char) (fd : Nat),
      (for_each_chip env func s).2 = pre ++ Event.applied p fd :: post →
      validates env p = true ∧ ∃ pre1, pre = pre1 ++ [Event.opened p fd]) ∧
    (calls_return env func dirs s = true →
      applied_paths (for_each_chip env func s).2 =
        (dirs.takeWhile fun d => validates env (chip_path d)).map chip_path) := by
  have hrun : for_each_chip env func s = for_each_chip_loop env func dirs s := by
    simp [for_each_chip, hlist]
  rw [hrun]
  exact ⟨applied_paths_loop_initial env func dirs s,
    applied_after_opened_loop env func dirs s,
    applied_paths_loop_eq env func dirs s⟩

/-- A run of `gpiodetect` in which the chip-info call succeeds:
`gpiochip0` and `gpiochip1` are both valid, `print_chip_detect` returns from
both calls, and it is applied to `/dev/gpiochip0` and then to
`/dev/gpiochip1`. -/
theorem for_each_chip_applies_to_valid_chips_witness :
    applied_paths
      (for_each_chip (two_chip_env (Except.ok ⟨"gpiochip0".toList, "bcm2835".toList, 54⟩))
        (print_chip_detect
          (two_chip_env (Except.ok ⟨"gpiochip0".toList, "bcm2835".toList, 54⟩))) proc0).2 =
      [dev_gpiochip0, dev_gpiochip1] :=
  ((for_each_chip_applies_to_valid_chips
    (two_chip_env (Except.ok ⟨"gpiochip0".toList, "bcm2835".toList, 54⟩))
    (print_chip_detect (two_chip_env (Except.ok ⟨"gpiochip0".toList, "bcm2835".toList, 54⟩)))
    proc0 [gpiochip0, gpiochip1] (by decide)).2.2 (by decide)).trans (by decide)

/-- C5, counterexample. Both enumerated chips validate, but the chip-info
call fails on `gpiochip0`: `print_chip_detect` terminates the process there,
and the operation is applied to `/dev/gpiochip0` only, not to the whole
list. -/
theorem for_each_chip_valid_chips_counterexample :
    get_gpiochip_list (two_chip_env (Except.error ENODEV)) proc0 =
      Res.ret [gpiochip0, gpiochip1] proc0 ∧
    validates (two_chip_env (Except.error ENODEV)) (chip_path gpiochip0) = true ∧
    validates (two_chip_env (Except.error ENODEV)) (chip_path gpiochip1) = true ∧
    applied_paths
      (for_each_chip (two_chip_env (Except.error ENODEV))
        (print_chip_detect (two_chip_env (Except.error ENODEV))) proc0).2 =
      [dev_gpiochip0] := by
  decide

/-- C6 (as amended). When every enumerated chip validates and the operation
returns from every call that the run makes of it, `for_each_chip` over the
`N` enumerated chips
returns, having made exactly `N` opens, `N` calls of the operation and `N`
closes; at every point of the run at most one chip handle is open; the run
is the sequence of visits, each chip opened, handed to the operation and
closed before the next one is opened; for `N = 0` nothing is done. -/
theorem for_each_chip_opens_closes (env : Env) (func : Nat → Proc → Res Unit)
    (s : Proc) (dirs : List dirent)
    (hlist : get_gpiochip_list env s = Res.ret dirs s)
    (hvalid : ∀ d ∈ dirs, validates env (chip_path d) = true)
    (hreturns : calls_return env func dirs s = true) :
    (∃ s1, (for_each_chip env func s).1 = Res.ret () s1) ∧
    opens (for_each_chip env func s).2 = dirs.length ∧
    calls (for_each_chip env func s).2 = dirs.length ∧
    closes (for_each_chip env func s).2 = dirs.length ∧
    (∀ pre : List Event, pre <+: (for_each_chip env func s).2 →
      closes pre ≤ opens pre ∧ opens pre ≤ closes pre + 1) ∧
    (∃ fds : List Nat, fds.length = dirs.length ∧
      (for_each_chip env func s).2 = visits (dirs.zip fds)) ∧
    (dirs = [] → (for_each_chip env func s).2 = []) := by
  have hrun : for_each_chip env func s = for_each_chip_loop env func dirs s := by
    simp [for_each_chip, hlist]
  obtain ⟨hret, fds, hlen, hlog⟩ :=
    loop_of_all_validate env func dirs s hvalid hreturns
  have hzip : (dirs.zip fds).length = dirs.length := by simp [hlen]
  obtain ⟨h1, h2, h3⟩ := visits_counts (dirs.zip fds)
  rw [hrun, hlog]
  refine ⟨hret, by omega, by omega, by omega, ?_, ⟨fds, hlen, rfl⟩, ?_⟩
  · exact visits_initial_balance (dirs.zip fds)
  · rintro rfl
    simp [visits]

/-- A run of `gpiodetect` in which the chip-info call succeeds, over the two
valid chips `gpiochip0` and `gpiochip1`: two opens and two closes. -/
theorem for_each_chip_opens_closes_witness :
    opens (for_each_chip (two_chip_env (Except.ok ⟨"gpiochip0".toList, "bcm2835".toList, 54⟩))
      (print_chip_detect
        (two_chip_env (Except.ok ⟨"gpiochip0".toList, "bcm2835".toList, 54⟩))) proc0).2 = 2 ∧
    closes (for_each_chip (two_chip_env (Except.ok ⟨"gpiochip0".toList, "bcm2835".toList, 54⟩))
      (print_chip_detect
        (two_chip_env (Except.ok ⟨"gpiochip0".toList, "bcm2835".toList, 54⟩))) proc0).2 = 2 :=
  have h := for_each_chip_opens_closes
    (two_chip_env (Except.ok ⟨"gpiochip0".toList, "bcm2835".toList, 54⟩))
    (print_chip_detect (two_chip_env (Except.ok ⟨"gpiochip0".toList, "bcm2835".toList, 54⟩)))
    proc0 [gpiochip0, gpiochip1] (by decide) (by decide) (by decide)
  ⟨h.2.1, h.2.2.2.1⟩

/-- C6, counterexample. Both enumerated chips validate, but the chip-info
call fails on `gpiochip0`: `print_chip_detect` terminates the process, and
the run has made one open and no close, not two of each. -/
theorem for_each_chip_opens_closes_counterexample :
    get_gpiochip_list (two_chip_env (Except.error ENODEV)) proc0 =
      Res.ret [gpiochip0, gpiochip1] proc0 ∧
    (∀ d ∈ [gpiochip0, gpiochip1],
      validates (two_chip_env (Except.error ENODEV)) (chip_path d) = true) ∧
    opens (for_each_chip (two_chip_env (Except.error ENODEV))
      (print_chip_detect (two_chip_env (Except.error ENODEV))) proc0).2 = 1 ∧
    closes (for_each_chip (two_chip_env (Except.error ENODEV))
      (print_chip_detect (two_chip_env (Except.error ENODEV))) proc0).2 = 0 := by
  decide

/-! ## Lemmas on the enumerator -/

theorem NUL_toNat : NUL.toNat = 0 := by decide

theorem toNat_pos_of_ne_NUL (c : Char) (h : c ≠ NUL) : 0 < c.toNat := by
  rcases Nat.eq_zero_or_pos c.toNat with h0 | h0
  · exact absurd ((toNat_sub_eq_zero_iff c NUL).mp (by rw [h0, NUL_toNat]; simp)) h
  · exact h0

theorem strcmp_le_zero_iff (a : List Char) (ha : NUL ∉ a) :
    ∀ b : List Char, NUL ∉ b → (strcmp a b ≤ 0 ↔ lex_le a b = true) := by
  induction a with
  | nil =>
    intro b _
    simp [strcmp, lex_le, NUL_toNat]
  | cons c t ih =>
    intro b hb
    have hc : c ≠ NUL := fun h => ha (by simp [h])
    have ht : NUL ∉ t := fun h => ha (List.mem_cons_of_mem _ h)
    cases b with
    | nil =>
      have hpos := toNat_pos_of_ne_NUL c hc
      simp [strcmp, lex_le, hc, NUL_toNat]
      omega
    | cons c2 t2 =>
      have ht2 : NUL ∉ t2 := fun h => hb (List.mem_cons_of_mem _ h)
      by_cases hcc : c = c2
      · subst hcc
        simp [strcmp, lex_le, hc, ih ht t2 ht2]
      · have hne : c.toNat ≠ c2.toNat := fun h =>
          hcc ((toNat_sub_eq_zero_iff c c2).mp (by omega))
        simp [strcmp, lex_le, hcc]
        omega

theorem lex_le_total : ∀ a b : List Char, lex_le a b = true ∨ lex_le b a = true := by
  intro a
  induction a with
  | nil => intro b; simp [lex_le]
  | cons c t ih =>
    intro b
    cases b with
    | nil => simp [lex_le]
    | cons c2 t2 =>
      by_cases hcc : c = c2
      · subst hcc
        simpa [lex_le] using ih t2
      · have hne : c.toNat ≠ c2.toNat := fun h =>
          hcc ((toNat_sub_eq_zero_iff c c2).mp (by omega))
        have hcc2 : ¬ c2 = c := fun h => hcc h.symm
        simp [lex_le, hcc, hcc2]
        omega

theorem lex_le_trans : ∀ a b c : List Char,
    lex_le a b = true → lex_le b c = true → lex_le a c = true := by
  intro a
  induction a with
  | nil => intro b c _ _; simp [lex_le]
  | cons x t ih =>
    intro b c hab hbc
    cases b with
    | nil => simp [lex_le] at hab
    | cons y t2 =>
      cases c with
      | nil => simp [lex_le] at hbc
      | cons z t3 =>
        by_cases hxy : x = y
        · subst hxy
          by_cases hxz : x = z
          · subst hxz
            simp only [lex_le, if_true] at hab hbc ⊢
            exact ih _ _ hab hbc
          · simp only [lex_le, hxz, if_false] at hbc ⊢
            exact hbc
        · by_cases hyz : y = z
          · subst hyz
            simp only [lex_le, hxy, if_false] at hab ⊢
            exact hab
          · simp only [lex_le, hxy, hyz, if_false, decide_eq_true_eq] at hab hbc
            have hxz : ¬ x = z := by
              intro h
              subst h
              omega
            simp only [lex_le, hxz, if_false, decide_eq_true_eq]
            omega

theorem lex_le_antisymm : ∀ a b : List Char,
    lex_le a b = true → lex_le b a = true → a = b := by
  intro a
  induction a with
  | nil =>
    intro b _ hba
    cases b with
    | nil => rfl
    | cons y t2 => simp [lex_le] at hba
  | cons x t ih =>
    intro b hab hba
    cases b with
    | nil => simp [lex_le] at hab
    | cons y t2 =>
      by_cases hxy : x = y
      · subst hxy
        simp only [lex_le, if_true] at hab hba
        rw [ih t2 hab hba]
      · have hyx : ¬ y = x := fun h => hxy h.symm
        simp only [lex_le, hxy, hyx, if_false, decide_eq_true_eq] at hab hba
        omega

theorem alphasort_le_iff (a b : dirent) :
    alphasort a b ≤ 0 ↔ lex_le a.d_name b.d_name = true :=
  strcmp_le_zero_iff a.d_name a.d_name_cstr b.d_name b.d_name_cstr

theorem dirent_eq_of_name (a b : dirent) (h : a.d_name = b.d_name) : a = b := by
  cases a
  cases b
  simp at h
  simp [h]

theorem is_dirent_gpiochip_ne_zero_iff (d : dirent) :
    is_dirent_gpiochip d ≠ 0 ↔ chip_name_start <+: d.d_name := by
  have h := strncmp_eq_zero_iff_begins chip_name_start (by decide) d.d_name
  have h8 : chip_name_start.length = 8 := by decide
  rw [h8] at h
  unfold is_dirent_gpiochip
  by_cases hz : strncmp d.d_name "gpiochip".toList 8 = 0
  · have hp : chip_name_start <+: d.d_name := h.mp hz
    rw [if_pos hz]
    simp [hp]
  · have hp : ¬ chip_name_start <+: d.d_name := fun hp => hz (h.mpr hp)
    rw [if_neg hz]
    simp [hp]

theorem scandir_list_perm (entries : List dirent) :
    (scandir_list entries is_dirent_gpiochip alphasort).Perm
      (entries.filter fun d => decide (chip_name_start <+: d.d_name)) := by
  unfold scandir_list
  refine (List.perm_insertionSort _ _).trans ?_
  have hf : (fun d => is_dirent_gpiochip d != 0) =
      fun d => decide (chip_name_start <+: d.d_name) := by
    funext d
    by_cases hp : chip_name_start <+: d.d_name
    · simp [hp, (is_dirent_gpiochip_ne_zero_iff d).mpr hp]
    · have hz : is_dirent_gpiochip d = 0 := by
        by_contra hne
        exact hp ((is_dirent_gpiochip_ne_zero_iff d).mp hne)
      simp [hp, hz]
  rw [hf]

theorem scandir_list_sorted (entries : List dirent) :
    (scandir_list entries is_dirent_gpiochip alphasort).Sorted
      (fun a b => alphasort a b ≤ 0) := by
  haveI : IsTotal dirent (fun a b => alphasort a b ≤ 0) :=
    ⟨fun a b => by
      simp only [alphasort_le_iff]
      exact lex_le_total _ _⟩
  haveI : IsTrans dirent (fun a b => alphasort a b ≤ 0) :=
    ⟨fun a b c => by
      simp only [alphasort_le_iff]
      exact lex_le_trans _ _ _⟩
  exact List.sorted_insertionSort _ _

theorem scandir_list_eq_of_perm (e1 e2 : List dirent) (h : e1.Perm e2) :
    scandir_list e1 is_dirent_gpiochip alphasort =
      scandir_list e2 is_dirent_gpiochip alphasort := by
  haveI : IsAntisymm dirent (fun a b => alphasort a b ≤ 0) :=
    ⟨fun a b => by
      simp only [alphasort_le_iff]
      exact fun h1 h2 => dirent_eq_of_name a b (lex_le_antisymm _ _ h1 h2)⟩
  refine List.eq_of_perm_of_sorted ?_ (scandir_list_sorted e1) (scandir_list_sorted e2)
  exact ((scandir_list_perm e1).trans (h.filter _)).trans (scandir_list_perm e2).symm

theorem get_gpiochip_list_of_entries (env : Env) (s : Proc) (entries : List dirent)
    (h : env.dir_entries "/dev".toList = some entries) :
    get_gpiochip_list env s =
      Res.ret (scandir_list entries is_dirent_gpiochip alphasort) s := by
  unfold get_gpiochip_list scandir
  rw [h]
  rfl

/-! ## Lemmas on the attribute path -/

theorem strrchr_none_of_not_mem (c : Char) :
    ∀ p : List Char, c ∉ p → strrchr p c = none := by
  intro p
  induction p with
  | nil => intro _; rfl
  | cons x t ih =>
    intro h
    have hx : ¬ x = c := fun hxc => h (by simp [hxc])
    have ht : c ∉ t := fun hm => h (List.mem_cons_of_mem _ hm)
    simp [strrchr, ih ht, hx]

theorem strrchr_append_last (c : Char) (b : List Char) (hb : c ∉ b) :
    ∀ dir : List Char, strrchr (dir ++ c :: b) c = some (c :: b) := by
  intro dir
  induction dir with
  | nil => simp [strrchr, strrchr_none_of_not_mem c b hb]
  | cons x t ih => simp [strrchr, ih]

theorem bb_basename_append (dir b : List Char) (hb : '/' ∉ b) :
    bb_basename (dir ++ '/' :: b) = b := by
  simp [bb_basename, strrchr_append_last '/' b hb dir]

theorem bb_basename_of_no_slash (p : List Char) (hp : '/' ∉ p) : bb_basename p = p := by
  simp [bb_basename, strrchr_none_of_not_mem '/' p hp]

theorem sysfsp_eq (path : List Char) :
    sysfsp path = "/sys/bus/gpio/devices/".toList ++ bb_basename path ++ "/dev".toList := by
  simp [sysfsp, xasprintf, c_format]

theorem chip_path_eq (d : dirent) : chip_path d = "/dev".toList ++ '/' :: d.d_name := by
  simp [chip_path, xasprintf, c_format]

/-! ## The enumerator: claims C7 and C8 -/

/-- C7. For every collection of `/dev` entries, `get_gpiochip_list` returns
exactly the entries whose name begins with the 8 characters `gpiochip`, each
as often as the directory holds it: an entry is returned if and only if it
is in the directory and its name starts with the prefix, and no entry with a
name shorter than 8 characters is returned. -/
theorem get_gpiochip_list_keeps_prefixed (env : Env) (s : Proc) (entries : List dirent)
    (h : env.dir_entries "/dev".toList = some entries) :
    ∃ dirs, get_gpiochip_list env s = Res.ret dirs s ∧
      chip_name_start = "gpiochip".toList ∧ chip_name_start.length = 8 ∧
      dirs.Perm (entries.filter fun d => decide (chip_name_start <+: d.d_name)) ∧
      (∀ d, d ∈ dirs ↔ d ∈ entries ∧ chip_name_start <+: d.d_name) ∧
      (∀ d ∈ entries, d.d_name.length < 8 → d ∉ dirs) := by
  have hperm := scandir_list_perm entries
  have hmem : ∀ d, d ∈ scandir_list entries is_dirent_gpiochip alphasort ↔
      d ∈ entries ∧ chip_name_start <+: d.d_name := by
    intro d
    rw [hperm.mem_iff]
    simp
  refine ⟨_, get_gpiochip_list_of_entries env s entries h, rfl, by decide, hperm, hmem, ?_⟩
  intro d _ hlen hd
  have hp := ((hmem d).mp hd).2
  have := hp.length_le
  have h8 : chip_name_start.length = 8 := by decide
  omega

/-- A directory with `gpiochip0`, `gpiochip1` and `random.txt`. -/
theorem get_gpiochip_list_keeps_prefixed_witness :
    ∃ dirs, get_gpiochip_list (dev_env [gpiochip0, gpiochip1, random_txt]) proc0 =
        Res.ret dirs proc0 ∧
      chip_name_start = "gpiochip".toList ∧ chip_name_start.length = 8 ∧
      dirs.Perm ([gpiochip0, gpiochip1, random_txt].filter
        fun d => decide (chip_name_start <+: d.d_name)) ∧
      (∀ d, d ∈ dirs ↔ d ∈ [gpiochip0, gpiochip1, random_txt] ∧ chip_name_start <+: d.d_name) ∧
      (∀ d ∈ [gpiochip0, gpiochip1, random_txt], d.d_name.length < 8 → d ∉ dirs) :=
  get_gpiochip_list_keeps_prefixed (dev_env [gpiochip0, gpiochip1, random_txt]) proc0
    [gpiochip0, gpiochip1, random_txt] (by decide)

/-- C8. For every collection of `/dev` entries the list that
`get_gpiochip_list` returns is sorted in plain lexicographic order of the
names, and it is the same list for every order in which the directory
yields the same entries, in particular on a repeated call. The entries
`gpiochip0`, `gpiochip1`, `random.txt` give `gpiochip0`, `gpiochip1`, and
`gpiochip10` is placed before `gpiochip2`. -/
theorem get_gpiochip_list_sorted_stable :
    (∀ (env env2 : Env) (s s2 : Proc) (entries entries2 : List dirent),
      env.dir_entries "/dev".toList = some entries →
      env2.dir_entries "/dev".toList = some entries2 →
      entries.Perm entries2 →
      ∃ dirs, get_gpiochip_list env s = Res.ret dirs s ∧
        get_gpiochip_list env2 s2 = Res.ret dirs s2 ∧
        (dirs.map dirent.d_name).Sorted (fun a b => lex_le a b = true)) ∧
    scandir_list [gpiochip0, gpiochip1, random_txt] is_dirent_gpiochip alphasort =
      [gpiochip0, gpiochip1] ∧
    scandir_list [gpiochip2, gpiochip10] is_dirent_gpiochip alphasort =
      [gpiochip10, gpiochip2] ∧
    lex_le "gpiochip2".toList "gpiochip10".toList = false := by
  refine ⟨?_, by decide, by decide, by decide⟩
  intro env env2 s s2 entries entries2 h1 h2 hperm
  refine ⟨_, get_gpiochip_list_of_entries env s entries h1, ?_, ?_⟩
  · rw [get_gpiochip_list_of_entries env2 s2 entries2 h2,
      scandir_list_eq_of_perm entries entries2 hperm]
  · have hs := scandir_list_sorted entries
    unfold List.Sorted at hs ⊢
    rw [List.pairwise_map]
    exact hs.imp fun {a b} hab => (alphasort_le_iff a b).mp hab

/-- The same three entries read in two different orders give the same
list. -/
theorem get_gpiochip_list_sorted_stable_witness :
    ∃ dirs, get_gpiochip_list (dev_env [gpiochip0, gpiochip1, random_txt]) proc0 =
        Res.ret dirs proc0 ∧
      get_gpiochip_list (dev_env [random_txt, gpiochip1, gpiochip0]) proc0 =
        Res.ret dirs proc0 ∧
      (dirs.map dirent.d_name).Sorted (fun a b => lex_le a b = true) :=
  get_gpiochip_list_sorted_stable.1
    (dev_env [gpiochip0, gpiochip1, random_txt]) (dev_env [random_txt, gpiochip1, gpiochip0])
    proc0 proc0 [gpiochip0, gpiochip1, random_txt] [random_txt, gpiochip1, gpiochip0]
    (by decide) (by decide) (by decide)

/-! ## The chip-info query: claim C9 -/

/-- C9. When the chip-info call on the descriptor returns the record `info`,
whose line count is an `unsigned int`, `print_chip_detect` returns after
appending to standard output exactly `<name> [<label>] (<lines> lines)` with
the count in decimal, and a newline. -/
theorem print_chip_detect_output (env : Env) (fd : Nat) (s : Proc) (path : List Char)
    (info : gpiochip_info)
    (hfd : s.fds.lookup fd = some path) (hinfo : env.chipinfo path = Except.ok info)
    (hlines : info.lines < 2 ^ 32) :
    print_chip_detect env fd s =
      Res.ret () { s with stdout := s.stdout ++ chip_line info } := by
  have hmod : info.lines % 4294967296 = info.lines := Nat.mod_eq_of_lt hlines
  simp [print_chip_detect, ioctl_or_perror_and_die_chipinfo, hfd, hinfo, printf, c_format,
    chip_line, hmod]

/-- Name `gpiochip0`, label `bcm2835` and 54 lines give the line
`gpiochip0 [bcm2835] (54 lines)`. -/
theorem print_chip_detect_output_witness :
    print_chip_detect
      (two_chip_env (Except.ok ⟨"gpiochip0".toList, "bcm2835".toList, 54⟩)) 3
      (opened_state dev_gpiochip0 proc0) =
      Res.ret () { opened_state dev_gpiochip0 proc0 with
        stdout := "gpiochip0 [bcm2835] (54 lines)\n".toList } :=
  (print_chip_detect_output
    (two_chip_env (Except.ok ⟨"gpiochip0".toList, "bcm2835".toList, 54⟩)) 3
    (opened_state dev_gpiochip0 proc0) dev_gpiochip0
    ⟨"gpiochip0".toList, "bcm2835".toList, 54⟩ (by decide) rfl (by decide)).trans
    (by decide)

/-! ## The sysfs attribute path: claim C10 -/

/-- C10. The sysfs attribute that `gpiochip_open` consults for a path is
`/sys/bus/gpio/devices/<b>/dev`, where `<b>` is the part of the path after
its last `/` (the whole path when it has none); so for an enumerated entry
name without `/` the path `/dev/<name>` leads to
`/sys/bus/gpio/devices/<name>/dev`. The outcome of `gpiochip_open` depends
on the accessibility and content of files through that one path only. -/
theorem sysfsp_of_basename :
    (∀ dir b : List Char, '/' ∉ b →
      sysfsp (dir ++ '/' :: b) =
        "/sys/bus/gpio/devices/".toList ++ b ++ "/dev".toList) ∧
    (∀ p : List Char, '/' ∉ p →
      sysfsp p = "/sys/bus/gpio/devices/".toList ++ p ++ "/dev".toList) ∧
    (∀ d : dirent, '/' ∉ d.d_name →
      chip_path d = "/dev/".toList ++ d.d_name ∧
      sysfsp (chip_path d) =
        "/sys/bus/gpio/devices/".toList ++ d.d_name ++ "/dev".toList) ∧
    (∀ (env env2 : Env) (path : List Char) (s : Proc),
      env.open_err path = env2.open_err path →
      env.fstat path = env2.fstat path →
      env.residue path = env2.residue path →
      env.access_r (sysfsp path) = env2.access_r (sysfsp path) →
      env.read_file (sysfsp path) = env2.read_file (sysfsp path) →
      gpiochip_open env path s = gpiochip_open env2 path s) := by
  refine ⟨?_, ?_, ?_, ?_⟩
  · intro dir b hb
    rw [sysfsp_eq, bb_basename_append dir b hb]
  · intro p hp
    rw [sysfsp_eq, bb_basename_of_no_slash p hp]
  · intro d hd
    refine ⟨by simp [chip_path_eq], ?_⟩
    rw [sysfsp_eq, chip_path_eq, bb_basename_append _ _ hd]
  · intro env env2 path s h1 h2 h3 h4 h5
    simp only [gpiochip_open, xopen, xfstat, open_read_close, h1, h2, h3, h4, h5]

/-- The entry `gpiochip0`: the path `/dev/gpiochip0` leads to
`/sys/bus/gpio/devices/gpiochip0/dev`. -/
theorem sysfsp_of_basename_witness :
    chip_path gpiochip0 = "/dev/".toList ++ gpiochip0.d_name ∧
    sysfsp (chip_path gpiochip0) =
      "/sys/bus/gpio/devices/".toList ++ gpiochip0.d_name ++ "/dev".toList :=
  sysfsp_of_basename.2.2.1 gpiochip0 (by decide)

end GpioTools
